import Mathlib

/-!
Verification of the `Settings` INI key/value store of this repository
(`src/Settings.cpp`, `src/Settings.h`) against its specification.

The C++ class is shallowly embedded:
* `std::string` is Lean `String`; line/character processing is done on `List Char`;
* the two-level `unordered_map<string, unordered_map<string, string>>` `m_data`
  is an association list `Data` whose `dataSet` mimics `m_data[cat][key] = val`
  (update-in-place for an existing key, append for a fresh one); list equality
  under the no-duplicate invariant refines map equality;
* `double` is modelled as `ℚ` (the numeric claims only involve values and
  decimal strings that are exact in this model); `int` is `ℤ` with the 32-bit
  range check that makes `std::stoi` throw `out_of_range`;
* the filesystem is an explicit `FileSystem` record of oracles and the mutable
  fields of the `Settings` object are a `SettingsState` record, so that
  `Load` / `ReloadIfChanged` / `Save` become pure state transformers.
-/

namespace Settings

/-- Model of `std::isspace` in the default locale (ASCII whitespace), as used
by the `trim` helper in `Settings.cpp` and by `std::stoi` / `std::stod`. -/
def isSpace (c : Char) : Bool :=
  c == ' ' || c == '\t' || c == '\n' || c == '\x0b' || c == '\x0c' || c == '\r'

/-- Decimal digit test, as used by `std::stoi` / `std::stod`. -/
def isDigit (c : Char) : Bool :=
  48 ≤ c.toNat && c.toNat ≤ 57

/-- `trim` of `Settings.cpp` (lines 20-25): erase leading and trailing
whitespace. -/
def trim (s : List Char) : List Char :=
  ((s.dropWhile isSpace).reverse.dropWhile isSpace).reverse

/-- Comment stripping of `Settings::Parse` (lines 88-93): erase from the first
`;`, then from the first `#`, i.e. keep the prefix before either marker. -/
def stripComment (l : List Char) : List Char :=
  (l.takeWhile (fun c => c != ';')).takeWhile (fun c => c != '#')

/-- One key-to-value table (`Settings::KV`), as an association list. -/
abbrev KV := List (String × String)

/-- The category table `m_data`, as an association list of categories. -/
abbrev Data := List (String × KV)

/-- `kv[key] = v`: overwrite an existing binding, append a fresh one. -/
def kvSet : KV → String → String → KV
  | [], k, v => [(k, v)]
  | (k', v') :: rest, k, v =>
      if k' = k then (k', v) :: rest else (k', v') :: kvSet rest k v

/-- Lookup of a key in one category table. -/
def kvFind : KV → String → Option String
  | [], _ => none
  | (k', v') :: rest, k => if k' = k then some v' else kvFind rest k

/-- `m_data[cat][key] = v`. -/
def dataSet : Data → String → String → String → Data
  | [], cat, k, v => [(cat, [(k, v)])]
  | (c, kv) :: rest, cat, k, v =>
      if c = cat then (c, kvSet kv k v) :: rest
      else (c, kv) :: dataSet rest cat k v

/-- Two-level lookup, the body of `Settings::GetString` (lines 125-134). -/
def dataFind : Data → String → String → Option String
  | [], _, _ => none
  | (c, kv) :: rest, cat, k => if c = cat then kvFind kv k else dataFind rest cat k

/-- `std::getline` splitting on newline: `"a\nb"` gives `["a", "b"]`, a final
newline produces no extra empty line, and empty input yields no lines. -/
def splitLinesAux : List Char → List Char → List (List Char)
  | [], acc => [acc.reverse]
  | c :: rest, acc =>
      if c = '\n' then
        acc.reverse :: (if rest.isEmpty then [] else splitLinesAux rest [])
      else splitLinesAux rest (c :: acc)

/-- The lines `Settings::Parse` iterates over (lines 86-87). -/
def splitLines (s : List Char) : List (List Char) :=
  if s.isEmpty then [] else splitLinesAux s []

/-- The body of the `while (std::getline(...))` loop of `Settings::Parse`
(lines 86-115): strip comments, trim, skip empty lines, recognise a
`[section]` header, otherwise split at the first `=` into key and value. -/
def processLine (d : Data) (cat : String) (line : List Char) : Data × String :=
  let l := trim (stripComment line)
  if l = [] then (d, cat)
  else if l.head? = some '[' ∧ l.getLast? = some ']' then
    (d, String.mk (trim ((l.drop 1).dropLast)))
  else
    let key := l.takeWhile (fun c => c != '=')
    match l.dropWhile (fun c => c != '=') with
    | [] => (d, cat)
    | _ :: v => (dataSet d cat (String.mk (trim key)) (String.mk (trim v)), cat)

/-- Folding the parse loop over the remaining lines. -/
def parseLines : List (List Char) → Data → String → Data
  | [], d, _ => d
  | l :: rest, d, cat =>
      let p := processLine d cat l
      parseLines rest p.1 p.2

/-- `Settings::Parse` (lines 79-117): clears `m_data` and refills it, starting
in category `"Default"`. In the source it always returns `true` (line 116), so
it is modelled as the resulting table alone. -/
def Parse (text : String) : Data :=
  parseLines (splitLines text.data) [] "Default"

/-- `Settings::GetString` (lines 125-134). -/
def GetString (d : Data) (cat key : String) : Option String :=
  dataFind d cat key

/-- Model of `::tolower` on one ASCII character. -/
def toLowerChar (c : Char) : Char :=
  if 65 ≤ c.toNat ∧ c.toNat ≤ 90 then Char.ofNat (c.toNat + 32) else c

/-- Lower-casing of a stored value, `std::transform(..., ::tolower)`
(line 193). -/
def lowerStr (s : String) : String :=
  String.mk (s.data.map toLowerChar)

/-- `Settings::GetBool` (lines 187-199). -/
def GetBool (d : Data) (cat key : String) (dflt : Bool) : Bool :=
  match GetString d cat key with
  | none => dflt
  | some s =>
      let v := lowerStr s
      if v = "1" ∨ v = "true" ∨ v = "on" ∨ v = "yes" then true
      else if v = "0" ∨ v = "false" ∨ v = "off" ∨ v = "no" then false
      else dflt

/-- Value of a digit string, most significant first (no sign handling). -/
def digitsToNat (ds : List Char) : Nat :=
  ds.foldl (fun a c => 10 * a + (c.toNat - 48)) 0

/-- Model of `std::stoi(s)` in base 10 (line 172): skip leading whitespace,
optional sign, at least one digit (else `invalid_argument`, i.e. `none`),
longest digit run, ignore anything after it, and `out_of_range` (`none`)
outside the 32-bit `int` range.  `GetInt` turns `none` into the default via
its `catch (...)`. -/
def stoiOpt (s : List Char) : Option ℤ :=
  let s1 := s.dropWhile isSpace
  let neg := s1.head? = some '-'
  let s2 := if s1.head? = some '-' ∨ s1.head? = some '+' then s1.tail else s1
  let ds := s2.takeWhile isDigit
  if ds.isEmpty then none
  else
    let n : ℤ := (digitsToNat ds : ℤ)
    let v := if neg then -n else n
    if v < -2147483648 ∨ 2147483647 < v then none else some v

/-- `2 ^ 1024`, the least power of two beyond the range of `double`
(see `dblOverflow_eq`): written as a numeral so that kernel reduction
never has to unfold an exponentiation. -/
def dblOverflow : ℕ :=
  179769313486231590772930519078902473361797697894230657273430081157732675805500963132708477322407536021120113879871393357658789768814416622492847430639474124377767893424865485276302219601246094119453082952085005768838150682342462881473913110540827237163350510684586298239947245938479716304835356329624224137216

/-- Model of `std::stod(s)` (line 150) on the decimal forms
`[ws][sign](digits[.digits] | .digits)[(e|E)[sign]digits]`: skip leading
whitespace, optional sign, a mantissa that needs at least one digit (else
`invalid_argument`, i.e. `none`), and an exponent that is only consumed when
complete.  Values are exact rationals (the claims only involve decimal
strings whose values this model shares with `double`); magnitudes at or
beyond `2^1024` overflow `double`, raising `out_of_range` (`none`).  The
hexadecimal, infinity and NaN forms of `strtod` do not occur in this
repository and are not modelled.  The model is split into the helpers
`fracPart` / `afterMant` / `parseExp` and the main `stodOpt`. -/
def fracPart (s3 : List Char) : List Char :=
  if s3.head? = some '.' then s3.tail.takeWhile isDigit else []

/-- What remains after the mantissa: the input after the optional
`.digits` block. -/
def afterMant (s3 : List Char) : List Char :=
  if s3.head? = some '.' then s3.tail.drop (s3.tail.takeWhile isDigit).length else s3

/-- The exponent `strtod` reads from what follows the mantissa: `0` unless a
complete `(e|E)[sign]digits` block is present. -/
def parseExp (rest : List Char) : ℤ :=
  if rest.head? = some 'e' ∨ rest.head? = some 'E' then
    let t := rest.tail
    let eneg := t.head? = some '-'
    let u := if t.head? = some '-' ∨ t.head? = some '+' then t.tail else t
    let eds := u.takeWhile isDigit
    if eds.isEmpty then 0
    else if eneg then -(digitsToNat eds : ℤ) else (digitsToNat eds : ℤ)
  else 0

def stodOpt (s : List Char) : Option ℚ :=
  let s1 := s.dropWhile isSpace
  let neg := s1.head? = some '-'
  let s2 := if s1.head? = some '-' ∨ s1.head? = some '+' then s1.tail else s1
  let ip := s2.takeWhile isDigit
  let s3 := s2.drop ip.length
  let fp := fracPart s3
  let rest := afterMant s3
  if ip.isEmpty ∧ fp.isEmpty then none
  else
    let den : ℕ := 10 ^ fp.length
    let numer : ℕ := digitsToNat ip * den + digitsToNat fp
    let e : ℤ := parseExp rest
    let mag : ℚ :=
      if 0 ≤ e then mkRat ((numer * 10 ^ e.natAbs : ℕ) : ℤ) den
      else mkRat (numer : ℤ) (den * 10 ^ e.natAbs)
    let m : ℚ := if neg then -mag else mag
    if m ≤ -((dblOverflow : ℚ)) ∨ ((dblOverflow : ℚ)) ≤ m then none else some m

/-- `Settings::GetDouble` (lines 143-156). -/
def GetDouble (d : Data) (cat key : String) (dflt : ℚ) : ℚ :=
  match GetString d cat key with
  | none => dflt
  | some s =>
      match stodOpt s.data with
      | none => dflt
      | some v => v

/-- `Settings::GetInt` (lines 165-178). -/
def GetInt (d : Data) (cat key : String) (dflt : ℤ) : ℤ :=
  match GetString d cat key with
  | none => dflt
  | some s =>
      match stoiOpt s.data with
      | none => dflt
      | some v => v

/-- Decimal digits of `n`, least significant first (`[]` for `0`). -/
def natDigitsRev : Nat → List Char
  | 0 => []
  | n + 1 =>
      Char.ofNat (48 + (n + 1) % 10) :: natDigitsRev ((n + 1) / 10)
decreasing_by exact Nat.div_lt_self (Nat.succ_pos n) (by decide)

/-- Decimal string of a natural number. -/
def natToString (n : Nat) : String :=
  if n = 0 then "0" else String.mk (natDigitsRev n).reverse

/-- Model of `std::to_string(int)` (line 229). -/
def intToString (v : ℤ) : String :=
  (if v < 0 then "-" else "") ++ natToString v.natAbs

/-- The six-digit zero-padded fractional block of `printf("%f")`,
for `m < 10^6`. -/
def frac6 (m : Nat) : List Char :=
  let ds := (natDigitsRev m).reverse
  List.replicate (6 - ds.length) '0' ++ ds

/-- Model of `std::to_string(double)` (line 219), which formats with
`printf`-style `"%f"`: sign, integer part, `.`, exactly six fractional
digits — i.e. the decimal for the nearest multiple of `10^-6`.  (On binary
`double`s the rounding is applied to the binary value; on this exact `ℚ`
model it is `round`.) -/
def doubleToString (v : ℚ) : String :=
  let n : ℤ := round (v * 1000000)
  let a := n.natAbs
  (if n < 0 then "-" else "") ++ natToString (a / 1000000) ++ "." ++
    String.mk (frac6 (a % 1000000))

/-- `Settings::SetString` (lines 207-210). -/
def SetString (d : Data) (cat key v : String) : Data :=
  dataSet d cat key v

/-- `Settings::SetDouble` (lines 217-220). -/
def SetDouble (d : Data) (cat key : String) (v : ℚ) : Data :=
  dataSet d cat key (doubleToString v)

/-- `Settings::SetInt` (lines 227-230). -/
def SetInt (d : Data) (cat key : String) (v : ℤ) : Data :=
  dataSet d cat key (intToString v)

/-- `Settings::SetBool` (lines 237-240). -/
def SetBool (d : Data) (cat key : String) (v : Bool) : Data :=
  dataSet d cat key (if v then "1" else "0")

/-- Lines written by `Settings::Save` (lines 254-260): per category a
`[cat]` header, one `key=value` line per pair, then a blank line. -/
def serializeLines (d : Data) : List (List Char) :=
  d.foldr
    (fun p acc =>
      ('[' :: p.1.data ++ [']']) ::
        (p.2.map (fun q => q.1.data ++ '=' :: q.2.data) ++ ([] :: acc)))
    []

/-- Join lines, terminating each with a newline. -/
def unlines (ls : List (List Char)) : List Char :=
  ls.foldr (fun l acc => l ++ '\n' :: acc) []

/-- The full text `Settings::Save` writes. -/
def serialize (d : Data) : String :=
  String.mk (unlines (serializeLines d))

/-- The mutable fields of the `Settings` object (`Settings.h` lines 118-121).
`m_path` (a `std::wstring`) is modelled as a `String`; the
`std::filesystem::file_time_type` timestamp as a `Nat` (its default
construction is `0`). -/
structure SettingsState where
  m_data : Data
  m_path : String
  m_lastWriteTime : Nat
deriving DecidableEq

/-- A default-constructed `Settings` object. -/
def initState : SettingsState :=
  { m_data := [], m_path := "", m_lastWriteTime := 0 }

/-- `Settings::Path` (`Settings.h` line 108). -/
def SettingsState.Path (st : SettingsState) : String :=
  st.m_path

/-- Oracles for the filesystem calls the class makes.  `fsRead p` is the full
content when the file opens for reading and `none` when `ifstream` fails;
`fsMtime` is `std::filesystem::last_write_time`.  `fsWritable`,
`fsExistsAfter` and `fsMtimeAfter` describe `Save`'s interaction: whether
`ofstream` opens, and the existence / timestamp observed after the write. -/
structure FileSystem where
  fsExists : String → Bool
  fsRead : String → Option String
  fsMtime : String → Nat
  fsWritable : String → Bool
  fsExistsAfter : String → Bool
  fsMtimeAfter : String → Nat

/-- `Settings::Load` (lines 32-48): store the path, then fail if the file
does not exist or cannot be opened; otherwise parse the whole content and
record the timestamp.  (`Parse` always reports success, line 116, so the
`!Parse` early-out at line 43 is unreachable.) -/
def Load (fs : FileSystem) (st : SettingsState) (path : String) :
    Bool × SettingsState :=
  let st1 := { st with m_path := path }
  if fs.fsExists path = false then (false, st1)
  else
    match fs.fsRead path with
    | none => (false, st1)
    | some text =>
        (true, { st1 with m_data := Parse text, m_lastWriteTime := fs.fsMtime path })

/-- `Settings::ReloadIfChanged` (lines 54-72). -/
def ReloadIfChanged (fs : FileSystem) (st : SettingsState) :
    Bool × SettingsState :=
  if st.m_path = "" ∨ fs.fsExists st.m_path = false then (false, st)
  else
    let now := fs.fsMtime st.m_path
    if now ≠ st.m_lastWriteTime then
      match fs.fsRead st.m_path with
      | none => (false, st)
      | some text =>
          (true, { st with m_data := Parse text, m_lastWriteTime := now })
    else (false, st)

/-- `Settings::Save` (lines 246-269): fail when no path is set or the file
cannot be opened for writing; otherwise write `serialize m_data` and, when
the file exists afterwards, refresh the cached timestamp.  The written text
is returned alongside the result. -/
def Save (fs : FileSystem) (st : SettingsState) :
    Bool × SettingsState × Option String :=
  if st.m_path = "" then (false, st, none)
  else if fs.fsWritable st.m_path = false then (false, st, none)
  else
    let st1 :=
      if fs.fsExistsAfter st.m_path then
        { st with m_lastWriteTime := fs.fsMtimeAfter st.m_path }
      else st
    (true, st1, some (serialize st.m_data))

/-- The truthy value set of `GetBool` (line 194). -/
def isTruthy (v : String) : Prop :=
  v = "1" ∨ v = "true" ∨ v = "on" ∨ v = "yes"

/-- The falsy value set of `GetBool` (line 196). -/
def isFalsy (v : String) : Prop :=
  v = "0" ∨ v = "false" ∨ v = "off" ∨ v = "no"

instance (v : String) : Decidable (isTruthy v) :=
  inferInstanceAs (Decidable (v = "1" ∨ v = "true" ∨ v = "on" ∨ v = "yes"))

instance (v : String) : Decidable (isFalsy v) :=
  inferInstanceAs (Decidable (v = "0" ∨ v = "false" ∨ v = "off" ∨ v = "no"))

/-- A line whose stripped-and-trimmed text is wrapped in brackets. -/
def isHeaderLine (l : List Char) : Prop :=
  (trim (stripComment l)).head? = some '[' ∧
  (trim (stripComment l)).getLast? = some ']'

instance (l : List Char) : Decidable (isHeaderLine l) :=
  inferInstanceAs (Decidable (_ ∧ _))

/-- A category name `Save` can round-trip: non-empty, free of comment
markers and newlines, and without surrounding whitespace. -/
def goodCatName (c : String) : Prop :=
  c ≠ "" ∧ ';' ∉ c.data ∧ '#' ∉ c.data ∧ '\n' ∉ c.data ∧ trim c.data = c.data

/-- A key `Save` can round-trip: as a category name, plus no `=` and not
starting with `[`. -/
def goodKey (k : String) : Prop :=
  k ≠ "" ∧ ';' ∉ k.data ∧ '#' ∉ k.data ∧ '\n' ∉ k.data ∧ trim k.data = k.data ∧
  '=' ∉ k.data ∧ k.data.head? ≠ some '['

/-- A value `Save` can round-trip: free of comment markers and newlines,
without surrounding whitespace (it may be empty and may contain `=`). -/
def goodVal (v : String) : Prop :=
  ';' ∉ v.data ∧ '#' ∉ v.data ∧ '\n' ∉ v.data ∧ trim v.data = v.data

/-- An in-memory document on which `Parse` inverts `Save`: category names
distinct (the `unordered_map` invariant) and good, each category non-empty
with distinct good keys and good values. -/
def goodData (d : Data) : Prop :=
  (d.map Prod.fst).Nodup ∧
  ∀ p ∈ d, goodCatName p.1 ∧ p.2 ≠ [] ∧ (p.2.map Prod.fst).Nodup ∧
    ∀ q ∈ p.2, goodKey q.1 ∧ goodVal q.2

instance (c : String) : Decidable (goodCatName c) :=
  inferInstanceAs (Decidable (_ ∧ _))

instance (k : String) : Decidable (goodKey k) :=
  inferInstanceAs (Decidable (_ ∧ _))

instance (v : String) : Decidable (goodVal v) :=
  inferInstanceAs (Decidable (_ ∧ _))

instance (d : Data) : Decidable (goodData d) :=
  inferInstanceAs (Decidable (_ ∧ _))

end Settings

namespace SettingsClaims

open Settings

/-- A filesystem oracle on which every operation succeeds and the current
timestamp (1) differs from a freshly default-constructed state's (0). -/
def demoFS : FileSystem :=
  { fsExists := fun _ => true, fsRead := fun _ => some "a=1\n",
    fsMtime := fun _ => 1, fsWritable := fun _ => true,
    fsExistsAfter := fun _ => true, fsMtimeAfter := fun _ => 2 }

/-- A filesystem oracle on which the file never exists but is writable. -/
def demoFS0 : FileSystem :=
  { fsExists := fun _ => false, fsRead := fun _ => none,
    fsMtime := fun _ => 1, fsWritable := fun _ => true,
    fsExistsAfter := fun _ => true, fsMtimeAfter := fun _ => 2 }

/-- A `Settings` object that has a path and some data loaded. -/
def demoSt : SettingsState :=
  { m_data := [("A", [("k", "v")])], m_path := "s.ini", m_lastWriteTime := 0 }

end SettingsClaims

namespace Settings

/-- The numeral `dblOverflow` is `2 ^ 1024`. -/
theorem dblOverflow_eq : dblOverflow = 2 ^ 1024 := by
  rw [dblOverflow]
  norm_num

/-! ### Helper lemmas about the association-list maps -/
theorem kvFind_kvSet_self (kv : KV) (k v : String) :
    kvFind (kvSet kv k v) k = some v := by
  induction kv with
  | nil => simp [kvSet, kvFind]
  | cons p rest ih =>
      obtain ⟨k', v'⟩ := p
      by_cases h : k' = k
      · simp [kvSet, kvFind, h]
      · simp [kvSet, kvFind, h, ih]

theorem dataFind_dataSet_self (d : Data) (c k v : String) :
    dataFind (dataSet d c k v) c k = some v := by
  induction d with
  | nil => simp [dataSet, dataFind, kvFind]
  | cons p rest ih =>
      obtain ⟨c', kv⟩ := p
      by_cases h : c' = c
      · simp [dataSet, dataFind, h, kvFind_kvSet_self kv]
      · simp [dataSet, dataFind, h, ih]

theorem kvSet_kvSet_self (kv : KV) (k v1 v2 : String) :
    kvSet (kvSet kv k v1) k v2 = kvSet kv k v2 := by
  induction kv with
  | nil => simp [kvSet]
  | cons p rest ih =>
      obtain ⟨k', v'⟩ := p
      by_cases h : k' = k
      · simp [kvSet, h]
      · simp [kvSet, h, ih]

theorem dataSet_dataSet_self (d : Data) (c k v1 v2 : String) :
    dataSet (dataSet d c k v1) c k v2 = dataSet d c k v2 := by
  induction d with
  | nil => simp [dataSet, kvSet]
  | cons p rest ih =>
      obtain ⟨c', kv⟩ := p
      by_cases h : c' = c
      · simp [dataSet, h, kvSet_kvSet_self]
      · simp [dataSet, h, ih]

theorem takeWhile_all {α : Type} (p : α → Bool) (l : List α) (h : ∀ a ∈ l, p a = true) :
    l.takeWhile p = l := by
  induction l with
  | nil => rfl
  | cons a t ih =>
      rw [List.takeWhile_cons, if_pos (h a (List.mem_cons_self a t)),
        ih (fun x hx => h x (List.mem_cons_of_mem a hx))]

theorem dropWhile_all {α : Type} (p : α → Bool) (l : List α) (h : ∀ a ∈ l, p a = true) :
    l.dropWhile p = [] := by
  induction l with
  | nil => rfl
  | cons a t ih =>
      rw [List.dropWhile_cons, if_pos (h a (List.mem_cons_self a t))]
      exact ih (fun x hx => h x (List.mem_cons_of_mem a hx))

theorem takeWhile_append_all {α : Type} (p : α → Bool) (l1 l2 : List α)
    (h : ∀ a ∈ l1, p a = true) :
    (l1 ++ l2).takeWhile p = l1 ++ l2.takeWhile p := by
  rw [List.takeWhile_append, takeWhile_all p l1 h]
  simp

theorem dropWhile_append_all {α : Type} (p : α → Bool) (l1 l2 : List α)
    (h : ∀ a ∈ l1, p a = true) :
    (l1 ++ l2).dropWhile p = l2.dropWhile p := by
  rw [List.dropWhile_append, dropWhile_all p l1 h]
  simp

theorem isSpace_cases {c : Char} (h : isSpace c = true) :
    c = ' ' ∨ c = '\t' ∨ c = '\n' ∨ c = '\x0b' ∨ c = '\x0c' ∨ c = '\r' := by
  have h' := h
  simp only [isSpace, Bool.or_eq_true, beq_iff_eq] at h'
  tauto

theorem space_not_semi {c : Char} (h : isSpace c = true) : (c != ';') = true := by
  rcases isSpace_cases h with h' | h' | h' | h' | h' | h' <;> subst h' <;> decide

theorem space_not_hash {c : Char} (h : isSpace c = true) : (c != '#') = true := by
  rcases isSpace_cases h with h' | h' | h' | h' | h' | h' <;> subst h' <;> decide

theorem trim_all_space {l : List Char} (h : ∀ c ∈ l, isSpace c = true) : trim l = [] := by
  unfold trim
  rw [dropWhile_all isSpace l h]
  rfl

theorem trim_decomp (l : List Char) :
    ∃ pre sfx, l = pre ++ trim l ++ sfx ∧
      (∀ c ∈ pre, isSpace c = true) ∧ (∀ c ∈ sfx, isSpace c = true) := by
  refine ⟨l.takeWhile isSpace,
    ((l.dropWhile isSpace).reverse.takeWhile isSpace).reverse, ?_, ?_, ?_⟩
  · conv_lhs => rw [← List.takeWhile_append_dropWhile isSpace l]
    rw [List.append_assoc]
    congr 1
    conv_lhs => rw [← List.reverse_reverse (l.dropWhile isSpace),
      ← List.takeWhile_append_dropWhile isSpace (l.dropWhile isSpace).reverse,
      List.reverse_append]
    unfold trim
    rfl
  · exact fun c hc => List.mem_takeWhile_imp hc
  · intro c hc
    rw [List.mem_reverse] at hc
    exact List.mem_takeWhile_imp hc

theorem head_trim_head {l : List Char} {c : Char} (h : (trim l).head? = some c) :
    ∃ pre t, l = pre ++ c :: t ∧ (∀ x ∈ pre, isSpace x = true) := by
  obtain ⟨pre, sfx, hl, hpre, hsfx⟩ := trim_decomp l
  cases htr : trim l with
  | nil => rw [htr] at h; simp at h
  | cons a t0 =>
      rw [htr] at h hl
      simp only [List.head?_cons, Option.some.injEq] at h
      subst h
      exact ⟨pre, t0 ++ sfx, by rw [hl]; simp, hpre⟩

theorem stripComment_hash_prefix (pre t : List Char)
    (hpre : ∀ x ∈ pre, isSpace x = true) :
    stripComment (pre ++ '#' :: t) = pre := by
  unfold stripComment
  rw [takeWhile_append_all _ pre _ (fun a ha => space_not_semi (hpre a ha)),
    List.takeWhile_cons, if_pos (by decide)]
  rw [takeWhile_append_all _ pre _ (fun a ha => space_not_hash (hpre a ha)),
    List.takeWhile_cons, if_neg (by decide)]
  simp

theorem processLine_skip (d : Data) (cat : String) (l : List Char)
    (h : trim (stripComment l) = []) : processLine d cat l = (d, cat) := by
  unfold processLine
  rw [h]
  simp

theorem processLine_congr (d : Data) (cat : String) (l1 l2 : List Char)
    (h : trim (stripComment l1) = trim (stripComment l2)) :
    processLine d cat l1 = processLine d cat l2 := by
  unfold processLine
  rw [h]

theorem processLine_hash (d : Data) (cat : String) (l : List Char)
    (h : (trim l).head? = some '#') : processLine d cat l = (d, cat) := by
  obtain ⟨pre, t, hl, hpre⟩ := head_trim_head h
  apply processLine_skip
  rw [hl, stripComment_hash_prefix pre t hpre]
  exact trim_all_space hpre

theorem processLine_header (d : Data) (cat : String) (line mid : List Char)
    (h : trim (stripComment line) = '[' :: mid ++ [']']) :
    processLine d cat line = (d, String.mk (trim mid)) := by
  unfold processLine
  rw [h]
  have hlast : ('[' :: (mid ++ [']'])).getLast? = some ']' := by
    rw [← List.cons_append, List.getLast?_concat]
  rw [if_neg (by simp), if_pos ⟨rfl, hlast⟩]
  simp [List.cons_append, List.dropLast_concat]

theorem processLine_keyval (d : Data) (cat : String) (line k v : List Char)
    (h : trim (stripComment line) = k ++ '=' :: v)
    (hk : ∀ c ∈ k, (c != '=') = true)
    (hnh : ¬((k ++ '=' :: v).head? = some '[' ∧ (k ++ '=' :: v).getLast? = some ']')) :
    processLine d cat line =
      (dataSet d cat (String.mk (trim k)) (String.mk (trim v)), cat) := by
  unfold processLine
  rw [h]
  rw [if_neg (by simp), if_neg hnh]
  have htake : (k ++ '=' :: v).takeWhile (fun c => c != '=') = k := by
    rw [takeWhile_append_all _ k _ hk, List.takeWhile_cons, if_neg (by decide)]
    simp
  have hdrop : (k ++ '=' :: v).dropWhile (fun c => c != '=') = '=' :: v := by
    rw [dropWhile_append_all _ k _ hk, List.dropWhile_cons, if_neg (by decide)]
  rw [htake, hdrop]

theorem processLine_snd_no_header (d : Data) (cat : String) (l : List Char)
    (h : ¬isHeaderLine l) : (processLine d cat l).2 = cat := by
  have h' : ¬((trim (stripComment l)).head? = some '[' ∧
      (trim (stripComment l)).getLast? = some ']') := h
  simp only [processLine]
  by_cases he : trim (stripComment l) = []
  · rw [if_pos he]
  · rw [if_neg he, if_neg h']
    cases hdw : (trim (stripComment l)).dropWhile (fun c => c != '=') with
    | nil => simp [hdw]
    | cons a t => simp [hdw]

theorem dataSet_cats_mem (d : Data) (c k v : String) :
    ∀ x ∈ (dataSet d c k v).map Prod.fst, x ∈ d.map Prod.fst ∨ x = c := by
  induction d with
  | nil => simp [dataSet]
  | cons p rest ih =>
      obtain ⟨c', kv⟩ := p
      intro x hx
      by_cases h : c' = c
      · simp only [dataSet, if_pos h] at hx
        simp only [List.map_cons] at hx ⊢
        exact Or.inl hx
      · simp only [dataSet, if_neg h, List.map_cons, List.mem_cons] at hx
        rcases hx with hx | hx
        · exact Or.inl (by simp [hx])
        · rcases ih x hx with h1 | h1
          · exact Or.inl (by simp [h1])
          · exact Or.inr h1

theorem processLine_fst_cats (d : Data) (cat : String) (l : List Char) :
    ∀ x ∈ (processLine d cat l).1.map Prod.fst, x ∈ d.map Prod.fst ∨ x = cat := by
  intro x hx
  simp only [processLine] at hx
  by_cases he : trim (stripComment l) = []
  · rw [if_pos he] at hx
    exact Or.inl hx
  · rw [if_neg he] at hx
    by_cases hh : (trim (stripComment l)).head? = some '[' ∧
        (trim (stripComment l)).getLast? = some ']'
    · rw [if_pos hh] at hx
      exact Or.inl hx
    · rw [if_neg hh] at hx
      cases hdw : (trim (stripComment l)).dropWhile (fun c => c != '=') with
      | nil => rw [hdw] at hx; exact Or.inl hx
      | cons a t =>
          rw [hdw] at hx
          simp only at hx
          exact dataSet_cats_mem d cat _ _ x hx

theorem parseLines_cats (lines : List (List Char)) (d : Data) (cat : String)
    (h : ∀ l ∈ lines, ¬isHeaderLine l) :
    ∀ p ∈ parseLines lines d cat, p.1 ∈ d.map Prod.fst ∨ p.1 = cat := by
  induction lines generalizing d with
  | nil =>
      intro p hp
      rw [parseLines] at hp
      exact Or.inl (List.mem_map_of_mem Prod.fst hp)
  | cons l rest ih =>
      intro p hp
      have hl := h l (by simp)
      rw [parseLines] at hp
      rw [processLine_snd_no_header d cat l hl] at hp
      rcases ih (processLine d cat l).1 (fun x hx => h x (by simp [hx])) p hp with hmem | hc
      · exact processLine_fst_cats d cat l p.1 hmem
      · exact Or.inr hc

theorem char_toNat_ofNat_valid (n : Nat) (h : Nat.isValidChar n) :
    (Char.ofNat n).toNat = n := by
  rw [Char.ofNat, dif_pos h]
  rfl

theorem digit_char_toNat (m : Nat) (h : m < 10) :
    (Char.ofNat (48 + m)).toNat = 48 + m :=
  char_toNat_ofNat_valid _ (Or.inl (by omega))

theorem digitsToNat_go (ds : List Char) (a : Nat) :
    ds.foldl (fun x c => 10 * x + (c.toNat - 48)) a
      = a * 10 ^ ds.length + digitsToNat ds := by
  induction ds generalizing a with
  | nil => simp [digitsToNat]
  | cons c t ih =>
      have h1 := ih (10 * a + (c.toNat - 48))
      have h2 := ih (10 * 0 + (c.toNat - 48))
      simp only [digitsToNat, List.foldl_cons, List.length_cons] at h1 h2 ⊢
      rw [h1, h2]
      ring

theorem digitsToNat_concat (ds : List Char) (c : Char) :
    digitsToNat (ds ++ [c]) = 10 * digitsToNat ds + (c.toNat - 48) := by
  simp only [digitsToNat, List.foldl_append, List.foldl_cons, List.foldl_nil]

theorem natDigitsRev_val : ∀ n : Nat, digitsToNat (natDigitsRev n).reverse = n := by
  intro n
  induction n using Nat.strong_induction_on with
  | _ n ih =>
    match n with
    | 0 => rw [natDigitsRev]; rfl
    | m + 1 =>
        rw [natDigitsRev, List.reverse_cons, digitsToNat_concat,
          ih ((m + 1) / 10) (Nat.div_lt_self (Nat.succ_pos m) (by decide)),
          digit_char_toNat _ (Nat.mod_lt _ (by decide))]
        omega

theorem natDigitsRev_isDigit : ∀ n : Nat, ∀ c ∈ natDigitsRev n, isDigit c = true := by
  intro n
  induction n using Nat.strong_induction_on with
  | _ n ih =>
    match n with
    | 0 => intro c hc; simp [natDigitsRev] at hc
    | m + 1 =>
        intro c hc
        rw [natDigitsRev, List.mem_cons] at hc
        rcases hc with hc | hc
        · subst hc
          have h10 : (m + 1) % 10 < 10 := Nat.mod_lt _ (by decide)
          simp only [isDigit, digit_char_toNat _ h10, Bool.and_eq_true,
            decide_eq_true_eq]
          omega
        · exact ih ((m + 1) / 10) (Nat.div_lt_self (Nat.succ_pos m) (by decide)) c hc

theorem natDigitsRev_ne_nil {n : Nat} (h : n ≠ 0) : natDigitsRev n ≠ [] := by
  match n with
  | 0 => exact absurd rfl h
  | m + 1 => rw [natDigitsRev]; simp

theorem digit_not_space {c : Char} (h : isDigit c = true) : isSpace c = false := by
  cases hc : isSpace c
  · rfl
  · exfalso
    rcases isSpace_cases hc with h' | h' | h' | h' | h' | h' <;> subst h' <;>
      revert h <;> decide

theorem digit_ne_dash {c : Char} (h : isDigit c = true) : c ≠ '-' := by
  rintro rfl; revert h; decide

theorem digit_ne_plus {c : Char} (h : isDigit c = true) : c ≠ '+' := by
  rintro rfl; revert h; decide

theorem stoiOpt_digits (ds : List Char) (hne : ds ≠ [])
    (hd : ∀ c ∈ ds, isDigit c = true)
    (hr : (digitsToNat ds : ℤ) ≤ 2147483647) :
    stoiOpt ds = some ((digitsToNat ds : ℤ)) := by
  obtain ⟨c, t, rfl⟩ : ∃ c t, ds = c :: t := by
    cases ds with
    | nil => exact absurd rfl hne
    | cons c t => exact ⟨c, t, rfl⟩
  have hc := hd c (List.mem_cons_self c t)
  have hdw : (c :: t).dropWhile isSpace = c :: t := by
    rw [List.dropWhile_cons, if_neg (by simp [digit_not_space hc])]
  have hns : ¬((c :: t).head? = some '-' ∨ (c :: t).head? = some '+') := by
    rintro (h' | h') <;> simp only [List.head?_cons, Option.some.injEq] at h'
    · exact digit_ne_dash hc h'
    · exact digit_ne_plus hc h'
  have hnegf : ¬((c :: t).head? = some '-') := fun h' =>
    digit_ne_dash hc (by simpa using h')
  simp only [stoiOpt]
  rw [hdw, if_neg hns, takeWhile_all isDigit (c :: t) hd]
  rw [if_neg (by simp : ¬((c :: t).isEmpty = true))]
  rw [if_neg hnegf]
  rw [if_neg ?range]
  case range =>
    rintro (h' | h')
    · have : (0 : ℤ) ≤ (digitsToNat (c :: t) : ℤ) := Int.ofNat_nonneg _
      omega
    · omega

theorem stoiOpt_neg_digits (ds : List Char) (hne : ds ≠ [])
    (hd : ∀ c ∈ ds, isDigit c = true)
    (hr : (digitsToNat ds : ℤ) ≤ 2147483648) :
    stoiOpt ('-' :: ds) = some (-(digitsToNat ds : ℤ)) := by
  have hdw : ('-' :: ds).dropWhile isSpace = '-' :: ds := by
    rw [List.dropWhile_cons, if_neg (by decide)]
  simp only [stoiOpt]
  rw [hdw, if_pos (show ('-' :: ds).head? = some '-' ∨ ('-' :: ds).head? = some '+'
    from Or.inl rfl)]
  simp only [List.tail_cons]
  rw [takeWhile_all isDigit ds hd]
  rw [if_neg (by simp [hne] : ¬(ds.isEmpty = true))]
  rw [if_pos (show ('-' :: ds).head? = some '-' from rfl)]
  rw [if_neg ?range]
  case range =>
    rintro (h' | h')
    · omega
    · have : (0 : ℤ) ≤ (digitsToNat ds : ℤ) := Int.ofNat_nonneg _
      omega

theorem stoiOpt_intToString (z : ℤ) (h1 : -2147483648 ≤ z) (h2 : z ≤ 2147483647) :
    stoiOpt (intToString z).data = some z := by
  by_cases hz : z < 0
  · have hn0 : z.natAbs ≠ 0 := by omega
    have hdata : (intToString z).data = '-' :: (natDigitsRev z.natAbs).reverse := by
      rw [intToString, if_pos hz, natToString, if_neg hn0, String.data_append]
      rfl
    rw [hdata, stoiOpt_neg_digits _ (by simp [natDigitsRev_ne_nil hn0])
      (fun c hc => natDigitsRev_isDigit z.natAbs c (List.mem_reverse.mp hc))
      (by rw [natDigitsRev_val]; omega)]
    rw [natDigitsRev_val]
    congr 1
    omega
  · by_cases h0 : z = 0
    · subst h0
      decide
    · have hn0 : z.natAbs ≠ 0 := by omega
      have hdata : (intToString z).data = (natDigitsRev z.natAbs).reverse := by
        rw [intToString, if_neg hz, natToString, if_neg hn0, String.data_append]
        rfl
      rw [hdata, stoiOpt_digits _ (by simp [natDigitsRev_ne_nil hn0])
        (fun c hc => natDigitsRev_isDigit z.natAbs c (List.mem_reverse.mp hc))
        (by rw [natDigitsRev_val]; omega)]
      rw [natDigitsRev_val]
      congr 1
      omega

theorem digitsToNat_replicate_zero (z : Nat) (ds : List Char) :
    digitsToNat (List.replicate z '0' ++ ds) = digitsToNat ds := by
  have h0 : ∀ z : Nat, List.foldl (fun x c => 10 * x + (c.toNat - 48)) 0
      (List.replicate z '0') = 0 := by
    intro z
    induction z with
    | zero => rfl
    | succ m ih => simpa [List.replicate_succ] using ih
  simp only [digitsToNat, List.foldl_append, h0]

theorem natDigitsRev_length_le {n k : Nat} (h : n < 10 ^ k) :
    (natDigitsRev n).length ≤ k := by
  induction n using Nat.strong_induction_on generalizing k with
  | _ n ih =>
    match n with
    | 0 => rw [natDigitsRev]; simp
    | m + 1 =>
        match k with
        | 0 => omega
        | j + 1 =>
            rw [natDigitsRev]
            simp only [List.length_cons]
            have hd : (m + 1) / 10 < 10 ^ j := by
              have := Nat.pow_succ 10 j
              omega
            have := ih ((m + 1) / 10) (Nat.div_lt_self (Nat.succ_pos m) (by decide)) hd
            omega

theorem frac6_spec (m : Nat) (h : m < 1000000) :
    (frac6 m).length = 6 ∧ (∀ c ∈ frac6 m, isDigit c = true) ∧
    digitsToNat (frac6 m) = m := by
  have hlen : (natDigitsRev m).length ≤ 6 :=
    natDigitsRev_length_le (show m < 10 ^ 6 by norm_num; exact h)
  refine ⟨?_, ?_, ?_⟩
  · simp only [frac6, List.length_append, List.length_replicate, List.length_reverse]
    omega
  · intro c hc
    simp only [frac6, List.mem_append, List.mem_replicate, List.mem_reverse] at hc
    rcases hc with ⟨_, rfl⟩ | hc
    · decide
    · exact natDigitsRev_isDigit m c hc
  · simp only [frac6]
    rw [digitsToNat_replicate_zero, natDigitsRev_val]

theorem natToString_spec (n : Nat) :
    (natToString n).data ≠ [] ∧ (∀ c ∈ (natToString n).data, isDigit c = true) ∧
    digitsToNat (natToString n).data = n := by
  by_cases h : n = 0
  · subst h
    refine ⟨by decide, by decide, by decide⟩
  · rw [natToString, if_neg h]
    refine ⟨by simp [natDigitsRev_ne_nil h], ?_, natDigitsRev_val n⟩
    intro c hc
    exact natDigitsRev_isDigit n c (List.mem_reverse.mp hc)

theorem digit_ne_dot {c : Char} (h : isDigit c = true) : c ≠ '.' := by
  rintro rfl; revert h; decide

theorem mkRat_nat_nonneg (a d : Nat) : 0 ≤ mkRat ((a : ℕ) : ℤ) d := by
  rw [Rat.mkRat_eq_div]
  positivity

theorem fracPart_dot (fp : List Char) (h : fp.takeWhile isDigit = fp) :
    fracPart ('.' :: fp) = fp := by
  rw [fracPart, if_pos (show ('.' :: fp).head? = some '.' from rfl), List.tail_cons, h]

theorem afterMant_dot (fp : List Char) (h : fp.takeWhile isDigit = fp) :
    afterMant ('.' :: fp) = [] := by
  rw [afterMant, if_pos (show ('.' :: fp).head? = some '.' from rfl), List.tail_cons, h,
    List.drop_length]

theorem parseExp_nil : parseExp [] = 0 := by
  rw [parseExp, if_neg (by simp)]

theorem stodOpt_mant (ip fp : List Char) (hipne : ip ≠ [])
    (hipd : ∀ c ∈ ip, isDigit c = true) (hfpd : ∀ c ∈ fp, isDigit c = true)
    (hsmall : mkRat ((digitsToNat ip * 10 ^ fp.length + digitsToNat fp : ℕ) : ℤ)
        (10 ^ fp.length) < ((dblOverflow : ℕ) : ℚ)) :
    stodOpt (ip ++ '.' :: fp) =
      some (mkRat ((digitsToNat ip * 10 ^ fp.length + digitsToNat fp : ℕ) : ℤ)
        (10 ^ fp.length)) := by
  obtain ⟨c, t, rfl⟩ : ∃ c t, ip = c :: t := by
    cases ip with
    | nil => exact absurd rfl hipne
    | cons c t => exact ⟨c, t, rfl⟩
  have hc := hipd c (List.mem_cons_self c t)
  have hdw : ((c :: t) ++ '.' :: fp).dropWhile isSpace = (c :: t) ++ '.' :: fp := by
    rw [List.cons_append, List.dropWhile_cons, if_neg (by simp [digit_not_space hc])]
  have hns : ¬(((c :: t) ++ '.' :: fp).head? = some '-' ∨
      ((c :: t) ++ '.' :: fp).head? = some '+') := by
    rintro (h' | h') <;>
      simp only [List.cons_append, List.head?_cons, Option.some.injEq] at h'
    · exact digit_ne_dash hc h'
    · exact digit_ne_plus hc h'
  have hnegf : ¬(((c :: t) ++ '.' :: fp).head? = some '-') := fun h' => hns (Or.inl h')
  have htake : ((c :: t) ++ '.' :: fp).takeWhile isDigit = c :: t := by
    rw [takeWhile_append_all _ _ _ hipd, List.takeWhile_cons, if_neg (by decide)]
    simp
  have hdrop : ((c :: t) ++ '.' :: fp).drop (c :: t).length = '.' :: fp :=
    List.drop_left (c :: t) ('.' :: fp)
  have htkfp : fp.takeWhile isDigit = fp := takeWhile_all isDigit fp hfpd
  simp only [stodOpt]
  rw [hdw, if_neg hns, htake, hdrop, fracPart_dot fp htkfp, afterMant_dot fp htkfp,
    parseExp_nil]
  rw [if_neg (show ¬((c :: t).isEmpty = true ∧ fp.isEmpty = true) from
    fun h' => by simp at h')]
  rw [if_pos (le_refl (0 : ℤ))]
  rw [if_neg hnegf]
  simp only [Int.natAbs_zero, pow_zero, mul_one]
  rw [if_neg ?ovf]
  case ovf =>
    rintro (h' | h')
    · have hnn := mkRat_nat_nonneg (digitsToNat (c :: t) * 10 ^ fp.length + digitsToNat fp)
        (10 ^ fp.length)
      have hpos : (0 : ℚ) < ((dblOverflow : ℕ) : ℚ) := by
        rw [dblOverflow_eq]
        positivity
      linarith
    · exact absurd h' (not_le.mpr hsmall)

theorem stodOpt_neg_mant (ip fp : List Char) (hipne : ip ≠ [])
    (hipd : ∀ c ∈ ip, isDigit c = true) (hfpd : ∀ c ∈ fp, isDigit c = true)
    (hsmall : mkRat ((digitsToNat ip * 10 ^ fp.length + digitsToNat fp : ℕ) : ℤ)
        (10 ^ fp.length) < ((dblOverflow : ℕ) : ℚ)) :
    stodOpt ('-' :: (ip ++ '.' :: fp)) =
      some (-(mkRat ((digitsToNat ip * 10 ^ fp.length + digitsToNat fp : ℕ) : ℤ)
        (10 ^ fp.length))) := by
  obtain ⟨c, t, rfl⟩ : ∃ c t, ip = c :: t := by
    cases ip with
    | nil => exact absurd rfl hipne
    | cons c t => exact ⟨c, t, rfl⟩
  have hdw : ('-' :: ((c :: t) ++ '.' :: fp)).dropWhile isSpace =
      '-' :: ((c :: t) ++ '.' :: fp) := by
    rw [List.dropWhile_cons, if_neg (by decide)]
  have htake : ((c :: t) ++ '.' :: fp).takeWhile isDigit = c :: t := by
    rw [takeWhile_append_all _ _ _ hipd, List.takeWhile_cons, if_neg (by decide)]
    simp
  have hdrop : ((c :: t) ++ '.' :: fp).drop (c :: t).length = '.' :: fp :=
    List.drop_left (c :: t) ('.' :: fp)
  have htkfp : fp.takeWhile isDigit = fp := takeWhile_all isDigit fp hfpd
  simp only [stodOpt]
  rw [hdw, if_pos (show ('-' :: ((c :: t) ++ '.' :: fp)).head? = some '-' ∨
    ('-' :: ((c :: t) ++ '.' :: fp)).head? = some '+' from Or.inl rfl)]
  simp only [List.tail_cons]
  rw [htake, hdrop, fracPart_dot fp htkfp, afterMant_dot fp htkfp, parseExp_nil]
  rw [if_neg (show ¬((c :: t).isEmpty = true ∧ fp.isEmpty = true) from
    fun h' => by simp at h')]
  rw [if_pos (le_refl (0 : ℤ))]
  rw [if_pos (show ('-' :: ((c :: t) ++ '.' :: fp)).head? = some '-' from rfl)]
  simp only [Int.natAbs_zero, pow_zero, mul_one]
  rw [if_neg ?ovf]
  case ovf =>
    rintro (h' | h')
    · rw [neg_le_neg_iff] at h'
      exact absurd h' (not_le.mpr hsmall)
    · have hnn := mkRat_nat_nonneg (digitsToNat (c :: t) * 10 ^ fp.length + digitsToNat fp)
        (10 ^ fp.length)
      have hpos : (0 : ℚ) < ((dblOverflow : ℕ) : ℚ) := by
        rw [dblOverflow_eq]
        positivity
      linarith

theorem round_natAbs_bound (q : ℚ) (h : |q| ≤ 2 ^ 1023) :
    (((round (q * 1000000)).natAbs : ℕ) : ℚ) < ((dblOverflow : ℕ) : ℚ) * 1000000 := by
  set z : ℚ := ((round (q * 1000000) : ℤ) : ℚ) with hz
  have h1 : |q * 1000000 - z| ≤ 1 / 2 := abs_sub_round _
  have h2 : (((round (q * 1000000)).natAbs : ℕ) : ℚ) = |z| := by
    rw [hz, Int.cast_natAbs, Int.cast_abs]
  have h5 : ((dblOverflow : ℕ) : ℚ) = 2 * 2 ^ 1023 := by
    rw [dblOverflow_eq]
    push_cast
    ring
  rw [h2, h5, abs_lt]
  rw [abs_le] at h h1
  have hp : (0 : ℚ) < 2 ^ 1023 := by positivity
  constructor <;> linarith [h.1, h.2, h1.1, h1.2]

theorem stodOpt_doubleToString (q : ℚ) (h : |q| ≤ 2 ^ 1023) :
    stodOpt (doubleToString q).data =
      some (((round (q * 1000000) : ℤ) : ℚ) / 1000000) := by
  have ha6 : (round (q * 1000000)).natAbs % 1000000 < 1000000 :=
    Nat.mod_lt _ (by norm_num)
  obtain ⟨hl6, hd6, hv6⟩ := frac6_spec ((round (q * 1000000)).natAbs % 1000000) ha6
  obtain ⟨hne, hdig, hval⟩ := natToString_spec ((round (q * 1000000)).natAbs / 1000000)
  have hnum : digitsToNat (natToString ((round (q * 1000000)).natAbs / 1000000)).data *
        10 ^ (frac6 ((round (q * 1000000)).natAbs % 1000000)).length +
        digitsToNat (frac6 ((round (q * 1000000)).natAbs % 1000000)) =
      (round (q * 1000000)).natAbs := by
    rw [hval, hv6, hl6]
    have := Nat.div_add_mod (round (q * 1000000)).natAbs 1000000
    norm_num
    omega
  have hden : ((10 ^ (frac6 ((round (q * 1000000)).natAbs % 1000000)).length : ℕ) : ℚ) =
      1000000 := by
    rw [hl6]
    norm_num
  have hsmall : mkRat (((round (q * 1000000)).natAbs : ℕ) : ℤ)
      (10 ^ (frac6 ((round (q * 1000000)).natAbs % 1000000)).length) <
      ((dblOverflow : ℕ) : ℚ) := by
    rw [Rat.mkRat_eq_div, hden]
    rw [div_lt_iff (by norm_num : (0 : ℚ) < 1000000)]
    exact_mod_cast round_natAbs_bound q h
  by_cases hneg : round (q * 1000000) < 0
  · have hdata : (doubleToString q).data =
        '-' :: ((natToString ((round (q * 1000000)).natAbs / 1000000)).data ++
          '.' :: frac6 ((round (q * 1000000)).natAbs % 1000000)) := by
      rw [doubleToString]
      simp only [if_pos hneg, String.data_append]
      simp
    rw [hdata, stodOpt_neg_mant _ _ hne hdig hd6 (by rw [hnum]; exact hsmall), hnum]
    have hcast : ((((round (q * 1000000)).natAbs : ℕ) : ℤ) : ℚ) =
        -(((round (q * 1000000) : ℤ)) : ℚ) := by
      push_cast [Int.cast_natAbs]
      rw [abs_of_neg (by exact_mod_cast hneg)]
    rw [Rat.mkRat_eq_div, hden, hcast]
    rw [neg_div, neg_neg]
  · have hdata : (doubleToString q).data =
        (natToString ((round (q * 1000000)).natAbs / 1000000)).data ++
          '.' :: frac6 ((round (q * 1000000)).natAbs % 1000000) := by
      rw [doubleToString]
      simp only [if_neg hneg, String.data_append]
      simp
    rw [hdata, stodOpt_mant _ _ hne hdig hd6 (by rw [hnum]; exact hsmall), hnum]
    have hcast : ((((round (q * 1000000)).natAbs : ℕ) : ℤ) : ℚ) =
        (((round (q * 1000000) : ℤ)) : ℚ) := by
      push_cast [Int.cast_natAbs]
      rw [abs_of_nonneg (by exact_mod_cast not_lt.mp hneg)]
    rw [Rat.mkRat_eq_div, hden, hcast]

theorem mk_data (s : String) : String.mk s.data = s := rfl

theorem length_dropWhile_le {α : Type} (p : α → Bool) (l : List α) :
    (l.dropWhile p).length ≤ l.length :=
  (List.dropWhile_suffix p).sublist.length_le

theorem stripComment_eq_self {l : List Char} (h1 : ';' ∉ l) (h2 : '#' ∉ l) :
    stripComment l = l := by
  unfold stripComment
  rw [takeWhile_all _ l (fun c hc => by
    simp only [bne_iff_ne, ne_eq]
    rintro rfl; exact h1 hc)]
  rw [takeWhile_all _ l (fun c hc => by
    simp only [bne_iff_ne, ne_eq]
    rintro rfl; exact h2 hc)]

theorem trim_eq_self (l : List Char)
    (h1 : ∀ c, l.head? = some c → isSpace c = false)
    (h2 : ∀ c, l.getLast? = some c → isSpace c = false) : trim l = l := by
  unfold trim
  have hd : l.dropWhile isSpace = l := by
    cases l with
    | nil => rfl
    | cons a t => rw [List.dropWhile_cons, if_neg (by simp [h1 a rfl])]
  rw [hd]
  have hd2 : l.reverse.dropWhile isSpace = l.reverse := by
    cases hr : l.reverse with
    | nil => rfl
    | cons a t =>
        rw [List.dropWhile_cons, if_neg ?_]
        have ha : l.getLast? = some a := by
          rw [List.getLast?_eq_head?_reverse, hr]
          rfl
        simp [h2 a ha]
  rw [hd2, List.reverse_reverse]

theorem trim_fix_head {l : List Char} (h : trim l = l) :
    ∀ c, l.head? = some c → isSpace c = false := by
  intro c hc
  cases l with
  | nil => simp at hc
  | cons a t =>
      simp only [List.head?_cons, Option.some.injEq] at hc
      rw [← hc]
      cases hs : isSpace a
      · rfl
      · exfalso
        have hlen := congrArg List.length h
        unfold trim at hlen
        rw [List.dropWhile_cons, if_pos hs] at hlen
        simp only [List.length_reverse, List.length_cons] at hlen
        have k1 := length_dropWhile_le isSpace (List.dropWhile isSpace t).reverse
        have k2 := length_dropWhile_le isSpace t
        simp only [List.length_reverse] at k1
        omega

theorem trim_fix_last {l : List Char} (h : trim l = l) :
    ∀ c, l.getLast? = some c → isSpace c = false := by
  intro c hc
  cases hs : isSpace c
  · rfl
  · exfalso
    obtain ⟨u, hu⟩ := List.dropWhile_suffix (l := l) isSpace
    cases hmn : l.dropWhile isSpace with
    | nil =>
        have ht : trim l = [] := by
          unfold trim
          rw [hmn]
          rfl
        rw [h] at ht
        rw [ht] at hc
        simp at hc
    | cons a t =>
        have hlast : (l.dropWhile isSpace).getLast? = some c := by
          rw [← hu, List.getLast?_append, hmn] at hc
          rw [hmn]
          cases hg : (a :: t).getLast? with
          | none => simp at hg
          | some x =>
              rw [hg] at hc
              simp only [Option.or_some, Option.some.injEq] at hc
              rw [hc]
        have hrev : (l.dropWhile isSpace).reverse.head? = some c := by
          rw [List.head?_reverse]
          exact hlast
        obtain ⟨t2, ht2⟩ : ∃ t2, (l.dropWhile isSpace).reverse = c :: t2 := by
          cases hr : (l.dropWhile isSpace).reverse with
          | nil => rw [hr] at hrev; simp at hrev
          | cons x y =>
              rw [hr] at hrev
              simp only [List.head?_cons, Option.some.injEq] at hrev
              exact ⟨y, by rw [hrev]⟩
        have hlen := congrArg List.length h
        unfold trim at hlen
        rw [ht2, List.dropWhile_cons, if_pos hs] at hlen
        simp only [List.length_reverse] at hlen
        have k1 := length_dropWhile_le isSpace t2
        have k2 : t2.length + 1 = (l.dropWhile isSpace).length := by
          have h3 := congrArg List.length ht2
          simp only [List.length_reverse, List.length_cons] at h3
          omega
        have k3 : (l.dropWhile isSpace).length ≤ l.length := length_dropWhile_le isSpace l
        omega

theorem splitLinesAux_append (l : List Char) (acc rest : List Char) (h : '\n' ∉ l) :
    splitLinesAux (l ++ '\n' :: rest) acc =
      (acc.reverse ++ l) :: (if rest.isEmpty then [] else splitLinesAux rest []) := by
  induction l generalizing acc with
  | nil =>
      rw [List.nil_append, splitLinesAux, if_pos rfl]
      simp
  | cons c t ih =>
      rw [List.cons_append, splitLinesAux,
        if_neg (by rintro rfl; exact h (List.mem_cons_self _ _)),
        ih (c :: acc) (fun hm => h (List.mem_cons_of_mem c hm))]
      simp

theorem unlines_cons (l : List Char) (ls : List (List Char)) :
    unlines (l :: ls) = l ++ '\n' :: unlines ls := rfl

theorem unlines_ne_nil (l : List Char) (ls : List (List Char)) :
    unlines (l :: ls) ≠ [] := by
  rw [unlines_cons]
  simp

theorem splitLines_unlines (ls : List (List Char)) (hne : ls ≠ [])
    (h : ∀ l ∈ ls, '\n' ∉ l) : splitLines (unlines ls) = ls := by
  induction ls with
  | nil => exact absurd rfl hne
  | cons l rest ih =>
      rw [unlines_cons, splitLines,
        if_neg (by simp : ¬((l ++ '\n' :: unlines rest).isEmpty = true)),
        splitLinesAux_append l [] (unlines rest) (h l (List.mem_cons_self _ _))]
      simp only [List.reverse_nil, List.nil_append]
      cases hrest : rest with
      | nil => simp [unlines]
      | cons r rs =>
          rw [hrest] at ih h
          rw [if_neg (by simpa [List.isEmpty_iff] using unlines_ne_nil r rs)]
          have hsp : splitLinesAux (unlines (r :: rs)) [] =
              splitLines (unlines (r :: rs)) := by
            rw [splitLines,
              if_neg (by simpa [List.isEmpty_iff] using unlines_ne_nil r rs)]
          rw [hsp, ih (by simp) (fun x hx => h x (List.mem_cons_of_mem l hx))]

theorem kvSet_fresh (kv : KV) (k v : String) (h : k ∉ kv.map Prod.fst) :
    kvSet kv k v = kv ++ [(k, v)] := by
  induction kv with
  | nil => rfl
  | cons p rest ih =>
      obtain ⟨k', v'⟩ := p
      simp only [List.map_cons, List.mem_cons, not_or] at h
      rw [kvSet, if_neg (fun he => h.1 he.symm), List.cons_append, ih h.2]

theorem dataSet_fresh (d : Data) (c k v : String) (h : c ∉ d.map Prod.fst) :
    dataSet d c k v = d ++ [(c, [(k, v)])] := by
  induction d with
  | nil => rfl
  | cons p rest ih =>
      obtain ⟨c', kv⟩ := p
      simp only [List.map_cons, List.mem_cons, not_or] at h
      rw [dataSet, if_neg (fun he => h.1 he.symm), List.cons_append, ih h.2]

theorem dataSet_last (acc : Data) (c : String) (kv : KV) (k v : String)
    (h : c ∉ acc.map Prod.fst) :
    dataSet (acc ++ [(c, kv)]) c k v = acc ++ [(c, kvSet kv k v)] := by
  induction acc with
  | nil => simp [dataSet]
  | cons p rest ih =>
      obtain ⟨c', kv'⟩ := p
      simp only [List.map_cons, List.mem_cons, not_or] at h
      rw [List.cons_append, dataSet, if_neg (fun he => h.1 he.symm), ih h.2,
        List.cons_append]

theorem getLast?_append_right {a : Type} (l1 l2 : List a) (h : l2 ≠ []) :
    (l1 ++ l2).getLast? = l2.getLast? := by
  rw [List.getLast?_append]
  cases hl : l2.getLast? with
  | none => exact absurd (List.getLast?_eq_none_iff.mp hl) h
  | some x => rfl

/-- The serialized form of one `key=value` pair. -/
theorem serialized_kv_line (k v : String) (hk : goodKey k) (hv : goodVal v)
    (d : Data) (cat : String) :
    processLine d cat (k.data ++ '=' :: v.data) = (dataSet d cat k v, cat) := by
  obtain ⟨hk0, hk1, hk2, hk3, hk4, hk5, hk6⟩ := hk
  obtain ⟨hv1, hv2, hv3, hv4⟩ := hv
  have hkne : k.data ≠ [] := fun h' => hk0 (by
    have := congrArg String.mk h'
    rwa [mk_data] at this)
  have hstrip : stripComment (k.data ++ '=' :: v.data) = k.data ++ '=' :: v.data := by
    apply stripComment_eq_self
    · simp only [List.mem_append, List.mem_cons, not_or]
      exact ⟨hk1, by decide, hv1⟩
    · simp only [List.mem_append, List.mem_cons, not_or]
      exact ⟨hk2, by decide, hv2⟩
  have htrim : trim (k.data ++ '=' :: v.data) = k.data ++ '=' :: v.data := by
    apply trim_eq_self
    · intro c hc
      cases hkd : k.data with
      | nil => exact absurd hkd hkne
      | cons a t =>
          rw [hkd, List.cons_append, List.head?_cons] at hc
          have := trim_fix_head hk4 a (by rw [hkd]; rfl)
          simp only [Option.some.injEq] at hc
          rw [← hc]
          exact this
    · intro c hc
      cases hvd : v.data with
      | nil =>
          rw [hvd] at hc
          rw [show k.data ++ ['='] = k.data ++ ['='] from rfl] at hc
          rw [List.getLast?_concat] at hc
          simp only [Option.some.injEq] at hc
          rw [← hc]
          decide
      | cons b u =>
          have hvne : v.data ≠ [] := by rw [hvd]; simp
          have hvl : v.data.getLast? = some c := by
            rw [show k.data ++ '=' :: v.data = (k.data ++ ['=']) ++ v.data by simp] at hc
            rwa [getLast?_append_right _ _ hvne] at hc
          exact trim_fix_last hv4 c hvl
  have hnh : ¬((k.data ++ '=' :: v.data).head? = some '[' ∧
      (k.data ++ '=' :: v.data).getLast? = some ']') := by
    rintro ⟨h1, _⟩
    cases hkd : k.data with
    | nil => exact absurd hkd hkne
    | cons a t =>
        rw [hkd, List.cons_append, List.head?_cons] at h1
        rw [hkd] at hk6
        simp only [List.head?_cons] at hk6
        exact hk6 h1
  have hres := processLine_keyval d cat (k.data ++ '=' :: v.data) k.data v.data
    (by rw [hstrip, htrim]) (fun c hc => by
      simp only [bne_iff_ne, ne_eq]
      rintro rfl
      exact hk5 hc) hnh
  rw [hres, hk4, hv4, mk_data, mk_data]

/-- The serialized form of one `[category]` header. -/
theorem serialized_header_line (c : String) (hc : goodCatName c)
    (d : Data) (cat : String) :
    processLine d cat ('[' :: c.data ++ [']']) = (d, c) := by
  obtain ⟨hc0, hc1, hc2, hc3, hc4⟩ := hc
  have hstrip : stripComment ('[' :: c.data ++ [']']) = '[' :: c.data ++ [']'] := by
    apply stripComment_eq_self <;>
      · simp only [List.cons_append, List.mem_cons, List.mem_append,
          List.mem_singleton, not_or]
        refine ⟨by decide, ?_, by decide⟩
        assumption
  have htrim : trim ('[' :: c.data ++ [']']) = '[' :: c.data ++ [']'] := by
    apply trim_eq_self
    · intro x hx
      rw [List.cons_append, List.head?_cons] at hx
      simp only [Option.some.injEq] at hx
      rw [← hx]
      decide
    · intro x hx
      rw [List.getLast?_concat] at hx
      simp only [Option.some.injEq] at hx
      rw [← hx]
      decide
  have hres := processLine_header d cat ('[' :: c.data ++ [']']) c.data
    (by rw [hstrip, htrim])
  rw [hres, hc4, mk_data]

/-- The blank line `Save` writes after each category. -/
theorem blank_line (d : Data) (cat : String) : processLine d cat [] = (d, cat) :=
  processLine_skip d cat [] rfl

theorem serializeLines_cons (c : String) (kv : KV) (rest : Data) :
    serializeLines ((c, kv) :: rest) = ('[' :: c.data ++ [']']) ::
      ((kv.map fun q => q.1.data ++ '=' :: q.2.data) ++ ([] :: serializeLines rest)) :=
  rfl

theorem parse_kv_block (kvs : List (String × String)) (R : List (List Char))
    (acc : Data) (c : String) (done : KV)
    (hc : c ∉ acc.map Prod.fst)
    (hkeys : ∀ q ∈ kvs, q.1 ∉ done.map Prod.fst)
    (hnodup : (kvs.map Prod.fst).Nodup)
    (hgood : ∀ q ∈ kvs, goodKey q.1 ∧ goodVal q.2) :
    parseLines ((kvs.map fun q => q.1.data ++ '=' :: q.2.data) ++ R)
      (acc ++ [(c, done)]) c
      = parseLines R (acc ++ [(c, done ++ kvs)]) c := by
  induction kvs generalizing done with
  | nil => simp
  | cons q qs ih =>
      obtain ⟨k, v⟩ := q
      obtain ⟨hgk, hgv⟩ := hgood (k, v) (List.mem_cons_self _ _)
      rw [List.map_cons, List.cons_append, parseLines,
        serialized_kv_line k v hgk hgv]
      simp only
      rw [dataSet_last acc c done k v hc,
        kvSet_fresh done k v (hkeys (k, v) (List.mem_cons_self _ _))]
      rw [ih (done ++ [(k, v)]) ?keys ?nodup ?good]
      · rw [List.append_assoc, List.singleton_append]
      case keys =>
        intro q' hq'
        simp only [List.map_append, List.mem_append, List.map_cons,
          List.map_nil, List.mem_singleton, not_or]
        refine ⟨hkeys q' (List.mem_cons_of_mem _ hq'), ?_⟩
        intro he
        rw [List.map_cons] at hnodup
        have := (List.nodup_cons.mp hnodup).1
        exact this (List.mem_map.mpr ⟨q', hq', he⟩)
      case nodup =>
        rw [List.map_cons] at hnodup
        exact (List.nodup_cons.mp hnodup).2
      case good => exact fun q' hq' => hgood q' (List.mem_cons_of_mem _ hq')

theorem serializeLines_no_lf (d : Data) :
    (∀ p ∈ d, goodCatName p.1 ∧ p.2 ≠ [] ∧ (p.2.map Prod.fst).Nodup ∧
      ∀ q ∈ p.2, goodKey q.1 ∧ goodVal q.2) →
    ∀ l ∈ serializeLines d, '\n' ∉ l := by
  induction d with
  | nil => intro _ l hl; simp [serializeLines] at hl
  | cons p rest ih =>
      intro hall
      obtain ⟨c, kv⟩ := p
      obtain ⟨hgc, _, _, hkgood⟩ := hall (c, kv) (List.mem_cons_self _ _)
      intro l hl
      rw [serializeLines_cons, List.mem_cons, List.mem_append, List.mem_cons] at hl
      rcases hl with hl | hl | hl | hl
      · subst hl
        simp only [List.cons_append, List.mem_cons, List.mem_append,
          List.mem_singleton, not_or]
        exact ⟨by decide, hgc.2.2.2.1, by decide⟩
      · obtain ⟨q, hq, rfl⟩ := List.mem_map.mp hl
        obtain ⟨hgk, hgv⟩ := hkgood q hq
        simp only [List.mem_append, List.mem_cons, not_or]
        exact ⟨hgk.2.2.2.1, by decide, hgv.2.2.1⟩
      · subst hl
        simp
      · exact ih (fun p' hp' => hall p' (List.mem_cons_of_mem _ hp')) l hl

theorem parse_serializeLines (d : Data) :
    ∀ (acc : Data) (cat : String), goodData d →
    (∀ p ∈ d, p.1 ∉ acc.map Prod.fst) →
    parseLines (serializeLines d) acc cat = acc ++ d := by
  induction d with
  | nil => intro acc cat _ _; simp [serializeLines, parseLines]
  | cons p rest ih =>
      intro acc cat hg hfresh
      obtain ⟨c, kv⟩ := p
      obtain ⟨hnodup, hall⟩ := hg
      obtain ⟨hgc, hkvne, hknodup, hkgood⟩ := hall (c, kv) (List.mem_cons_self _ _)
      have hcacc : c ∉ acc.map Prod.fst := hfresh (c, kv) (List.mem_cons_self _ _)
      obtain ⟨q0, kvrest, rfl⟩ : ∃ q0 kvrest, kv = q0 :: kvrest := by
        cases kv with
        | nil => exact absurd rfl hkvne
        | cons q0 kvrest => exact ⟨q0, kvrest, rfl⟩
      obtain ⟨k0, v0⟩ := q0
      obtain ⟨hgk0, hgv0⟩ := hkgood (k0, v0) (List.mem_cons_self _ _)
      rw [serializeLines_cons, parseLines, serialized_header_line c hgc acc cat]
      simp only
      rw [List.map_cons, List.cons_append, parseLines,
        serialized_kv_line k0 v0 hgk0 hgv0]
      simp only
      rw [dataSet_fresh acc c k0 v0 hcacc]
      rw [parse_kv_block kvrest ([] :: serializeLines rest) acc c [(k0, v0)]
        hcacc ?keys ?nodup ?good]
      · rw [parseLines, blank_line]
        simp only [List.singleton_append]
        rw [ih (acc ++ [(c, (k0, v0) :: kvrest)]) c
          ⟨(List.nodup_cons.mp hnodup).2,
            fun p' hp' => hall p' (List.mem_cons_of_mem _ hp')⟩ ?fresh]
        · rw [List.append_assoc, List.singleton_append]
        case fresh =>
          intro p' hp'
          simp only [List.map_append, List.mem_append, List.map_cons,
            List.map_nil, List.mem_singleton, not_or]
          refine ⟨hfresh p' (List.mem_cons_of_mem _ hp'), ?_⟩
          intro he
          have := (List.nodup_cons.mp hnodup).1
          exact this (List.mem_map.mpr ⟨p', hp', he⟩)
      case keys =>
        intro q' hq'
        simp only [List.map_cons, List.map_nil, List.mem_singleton]
        intro he
        rw [List.map_cons] at hknodup
        exact (List.nodup_cons.mp hknodup).1 (List.mem_map.mpr ⟨q', hq', he⟩)
      case nodup =>
        rw [List.map_cons] at hknodup
        exact (List.nodup_cons.mp hknodup).2
      case good => exact fun q' hq' => hkgood q' (List.mem_cons_of_mem _ hq')

end Settings

namespace SettingsClaims

open Settings

/-- Claim C1, as stated, is false on the code: the stored string `"1x"` is
not a well-formed number, yet `GetInt` returns `1`, not the caller-supplied
default `7` — `std::stoi`/`std::stod` parse the longest numeric prefix and
ignore trailing characters rather than failing.  Likewise `"2.5x"` makes
`GetDouble` return `2.5`. -/
theorem C1_counterexample :
    ¬(GetInt [("Default", [("Speed", "1x")])] "Default" "Speed" 7 = 7 ∧
      GetDouble [("Default", [("Speed", "2.5x")])] "Default" "Speed" 7 = 7) := by
  intro h
  exact absurd h.1 (by decide)

/-- Claim C1 (amended): `GetDouble`/`GetInt` return the caller-supplied
default whenever the key is absent or numeric parsing of the stored string
fails in the `std::stod`/`std::stoi` sense — no parseable numeric prefix, or
(for `GetInt`) a value outside `int` range; a stored string with a valid
numeric prefix (even with trailing non-numeric characters) yields the
prefix's value; for keys never set the getters return exactly the default. -/
theorem C1_amended (d : Data) (cat key : String) (qd : ℚ) (zd : ℤ) :
    (GetString d cat key = none →
      GetDouble d cat key qd = qd ∧ GetInt d cat key zd = zd) ∧
    (∀ s, GetString d cat key = some s →
      (stodOpt s.data = none → GetDouble d cat key qd = qd) ∧
      (∀ q, stodOpt s.data = some q → GetDouble d cat key qd = q) ∧
      (stoiOpt s.data = none → GetInt d cat key zd = zd) ∧
      (∀ z, stoiOpt s.data = some z → GetInt d cat key zd = z)) := by
  constructor
  · intro h
    constructor
    · simp [GetDouble, h]
    · simp [GetInt, h]
  · intro s hs
    refine ⟨?_, ?_, ?_, ?_⟩
    · intro h; simp [GetDouble, hs, h]
    · intro q h; simp [GetDouble, hs, h]
    · intro h; simp [GetInt, hs, h]
    · intro z h; simp [GetInt, hs, h]

/-- Witness for `C1_amended` at concrete inputs: an absent key returns the
default, a malformed stored string (`"abc"`) returns the default, and a
stored string with a numeric prefix (`"1x"`) returns the prefix value. -/
theorem C1_amended_witness :
    (GetDouble [] "A" "k" 3 = 3 ∧ GetInt [] "A" "k" 5 = 5) ∧
    GetInt [("A", [("k", "abc")])] "A" "k" 5 = 5 ∧
    GetInt [("A", [("k", "1x")])] "A" "k" 5 = 1 :=
  ⟨(C1_amended [] "A" "k" 3 5).1 rfl,
   (((C1_amended [("A", [("k", "abc")])] "A" "k" 3 5).2 "abc" rfl).2.2.1 (by decide)),
   (((C1_amended [("A", [("k", "1x")])] "A" "k" 3 5).2 "1x" rfl).2.2.2 1 (by decide))⟩

/-- Claim C3: after parsing the given document text, `GetBool` on
`Render/VSync` with default `true` is `false`, `GetInt` on
`Render/HotReloadIntervalMs` with default `500` is `250`, `GetDouble` on
`Triangle/Scale` with default `1.0` is `2.5`, and `GetDouble` on the absent
`Triangle/RotationSpeed` with default `1.0` is `1.0`. -/
theorem C3_example_scenario :
    GetBool (Parse "[Render]\nVSync=0\nHotReloadIntervalMs=250\n[Triangle]\nScale=2.5\n")
      "Render" "VSync" true = false ∧
    GetInt (Parse "[Render]\nVSync=0\nHotReloadIntervalMs=250\n[Triangle]\nScale=2.5\n")
      "Render" "HotReloadIntervalMs" 500 = 250 ∧
    GetDouble (Parse "[Render]\nVSync=0\nHotReloadIntervalMs=250\n[Triangle]\nScale=2.5\n")
      "Triangle" "Scale" 1 = 5 / 2 ∧
    GetDouble (Parse "[Render]\nVSync=0\nHotReloadIntervalMs=250\n[Triangle]\nScale=2.5\n")
      "Triangle" "RotationSpeed" 1 = 1 := by
  refine ⟨by decide, by decide, ?_, by decide⟩
  have h : GetDouble
      (Parse "[Render]\nVSync=0\nHotReloadIntervalMs=250\n[Triangle]\nScale=2.5\n")
      "Triangle" "Scale" 1 = mkRat 5 2 := by decide
  rw [h, Rat.mkRat_eq_div]
  norm_num

/-- Claim C4: `GetBool` lower-cases the stored string; any-case `1`, `true`,
`on`, `yes` yield `true`, any-case `0`, `false`, `off`, `no` yield `false`,
and any other stored string — or an absent key — yields the caller-supplied
default. -/
theorem C4_getbool (d : Data) (cat key : String) (dflt : Bool) :
    (GetString d cat key = none → GetBool d cat key dflt = dflt) ∧
    (∀ s, GetString d cat key = some s →
      (isTruthy (lowerStr s) → GetBool d cat key dflt = true) ∧
      (isFalsy (lowerStr s) → GetBool d cat key dflt = false) ∧
      (¬isTruthy (lowerStr s) → ¬isFalsy (lowerStr s) →
        GetBool d cat key dflt = dflt)) := by
  constructor
  · intro h; simp [GetBool, h]
  · intro s hs
    have ht : isTruthy (lowerStr s) ↔
        (lowerStr s = "1" ∨ lowerStr s = "true" ∨ lowerStr s = "on" ∨
          lowerStr s = "yes") := Iff.rfl
    have hf : isFalsy (lowerStr s) ↔
        (lowerStr s = "0" ∨ lowerStr s = "false" ∨ lowerStr s = "off" ∨
          lowerStr s = "no") := Iff.rfl
    refine ⟨?_, ?_, ?_⟩
    · intro h
      simp only [GetBool, hs]
      rw [if_pos (ht.mp h)]
    · intro h
      have hnt : ¬(lowerStr s = "1" ∨ lowerStr s = "true" ∨ lowerStr s = "on" ∨
          lowerStr s = "yes") := by
        rcases hf.mp h with h' | h' | h' | h' <;> rw [h'] <;> decide
      simp only [GetBool, hs]
      rw [if_neg hnt, if_pos (hf.mp h)]
    · intro hnt hnf
      simp only [GetBool, hs]
      rw [if_neg (fun h => hnt (ht.mpr h)), if_neg (fun h => hnf (hf.mpr h))]

/-- Witness for `C4_getbool` at concrete inputs: `"TRUE"` yields `true`,
`"off"` yields `false`, `"maybe"` yields the default, an absent key yields
the default. -/
theorem C4_getbool_witness :
    GetBool [("A", [("k", "TRUE")])] "A" "k" false = true ∧
    GetBool [("A", [("k", "off")])] "A" "k" true = false ∧
    GetBool [("A", [("k", "maybe")])] "A" "k" true = true ∧
    GetBool [] "A" "k" false = false :=
  ⟨((C4_getbool [("A", [("k", "TRUE")])] "A" "k" false).2 "TRUE" rfl).1
      (Or.inr (Or.inl (by decide))),
   ((C4_getbool [("A", [("k", "off")])] "A" "k" true).2 "off" rfl).2.1
      (Or.inr (Or.inr (Or.inl (by decide)))),
   ((C4_getbool [("A", [("k", "maybe")])] "A" "k" true).2 "maybe" rfl).2.2
      (by decide) (by decide),
   (C4_getbool [] "A" "k" false).1 rfl⟩

/-- Claim C7: when `Load` returns false the categories, keys, values and the
stored timestamp are unchanged (only `m_path` is reassigned, which the claim
does not list); when `ReloadIfChanged` returns false the whole state is
unchanged; and `ReloadIfChanged` returns true only when the file was
actually re-read and re-parsed, fully replacing the in-memory document and
refreshing the stored timestamp. -/
theorem C7_failure_preserves_state (fs : FileSystem) (st : SettingsState) (path : String) :
    ((Load fs st path).1 = false →
      (Load fs st path).2.m_data = st.m_data ∧
      (Load fs st path).2.m_lastWriteTime = st.m_lastWriteTime) ∧
    ((ReloadIfChanged fs st).1 = false → (ReloadIfChanged fs st).2 = st) ∧
    ((ReloadIfChanged fs st).1 = true →
      ∃ text, fs.fsRead st.m_path = some text ∧
        (ReloadIfChanged fs st).2.m_data = Parse text ∧
        (ReloadIfChanged fs st).2.m_lastWriteTime = fs.fsMtime st.m_path ∧
        (ReloadIfChanged fs st).2.m_path = st.m_path) := by
  refine ⟨?_, ?_, ?_⟩
  · intro h
    by_cases hex : fs.fsExists path = false
    · simp [Load, hex]
    · cases hrd : fs.fsRead path with
      | none => simp [Load, hex, hrd]
      | some text => simp [Load, hex, hrd] at h
  · intro h
    by_cases hp : st.m_path = "" ∨ fs.fsExists st.m_path = false
    · simp [ReloadIfChanged, hp]
    · by_cases ht : fs.fsMtime st.m_path ≠ st.m_lastWriteTime
      · cases hrd : fs.fsRead st.m_path with
        | none => simp [ReloadIfChanged, hp, ht, hrd]
        | some text => simp [ReloadIfChanged, hp, ht, hrd] at h
      · simp [ReloadIfChanged, hp, ht]
  · intro h
    by_cases hp : st.m_path = "" ∨ fs.fsExists st.m_path = false
    · simp [ReloadIfChanged, hp] at h
    · by_cases ht : fs.fsMtime st.m_path ≠ st.m_lastWriteTime
      · cases hrd : fs.fsRead st.m_path with
        | none => simp [ReloadIfChanged, hp, ht, hrd] at h
        | some text =>
            refine ⟨text, rfl, ?_⟩
            simp [ReloadIfChanged, hp, ht, hrd]
      · simp [ReloadIfChanged, hp, ht] at h

/-- Witness for `C7_failure_preserves_state`: a failing `Load` and a failing
`ReloadIfChanged` keep the data and timestamp; a succeeding
`ReloadIfChanged` replaces the document with the re-parsed file content. -/
theorem C7_failure_preserves_state_witness :
    ((Load demoFS0 demoSt "p.ini").2.m_data = demoSt.m_data ∧
      (Load demoFS0 demoSt "p.ini").2.m_lastWriteTime = demoSt.m_lastWriteTime) ∧
    (ReloadIfChanged demoFS0 demoSt).2 = demoSt ∧
    (∃ text, demoFS.fsRead demoSt.m_path = some text ∧
      (ReloadIfChanged demoFS demoSt).2.m_data = Parse text ∧
      (ReloadIfChanged demoFS demoSt).2.m_lastWriteTime = demoFS.fsMtime demoSt.m_path ∧
      (ReloadIfChanged demoFS demoSt).2.m_path = demoSt.m_path) :=
  ⟨(C7_failure_preserves_state demoFS0 demoSt "p.ini").1 (by decide),
   (C7_failure_preserves_state demoFS0 demoSt "p.ini").2.1 (by decide),
   (C7_failure_preserves_state demoFS demoSt "p.ini").2.2 (by decide)⟩

/-- Claim C8: if the on-disk timestamp does not change between two
consecutive calls to `ReloadIfChanged` (modelled by both calls consulting
the same filesystem oracle) and the first call returns true, the second
returns false. -/
theorem C8_reload_idempotent (fs : FileSystem) (st : SettingsState)
    (h : (ReloadIfChanged fs st).1 = true) :
    (ReloadIfChanged fs (ReloadIfChanged fs st).2).1 = false := by
  by_cases hp : st.m_path = "" ∨ fs.fsExists st.m_path = false
  · simp [ReloadIfChanged, hp] at h
  · by_cases ht : fs.fsMtime st.m_path ≠ st.m_lastWriteTime
    · cases hrd : fs.fsRead st.m_path with
      | none => simp [ReloadIfChanged, hp, ht, hrd] at h
      | some text =>
          have hst : (ReloadIfChanged fs st).2 =
              { st with m_data := Parse text,
                        m_lastWriteTime := fs.fsMtime st.m_path } := by
            simp [ReloadIfChanged, hp, ht, hrd]
          rw [hst]
          simp [ReloadIfChanged, hp]
    · simp [ReloadIfChanged, hp, ht] at h

/-- Witness for `C8_reload_idempotent` on a concrete state whose first
reload succeeds. -/
theorem C8_reload_idempotent_witness :
    (ReloadIfChanged demoFS (ReloadIfChanged demoFS demoSt).2).1 = false :=
  C8_reload_idempotent demoFS demoSt (by decide)

/-- Claim C9: `Load` stores the path before the existence check, so for a
non-existing file it returns false while `Path()` afterwards returns that
path, and a subsequent `Save` no longer fails for lack of a path — it
succeeds exactly when the file can be opened for writing. -/
theorem C9_load_stores_path (fs : FileSystem) (st : SettingsState)
    (path : String) (hne : path ≠ "") (hex : fs.fsExists path = false) :
    (Load fs st path).1 = false ∧
    (Load fs st path).2.Path = path ∧
    ((Save fs (Load fs st path).2).1 = true ↔ fs.fsWritable path = true) := by
  have hload : Load fs st path = (false, { st with m_path := path }) := by
    simp [Load, hex]
  rw [hload]
  refine ⟨rfl, rfl, ?_⟩
  by_cases hw : fs.fsWritable path = false
  · simp [Save, hne, hw]
  · simp [Save, hne, hw]

/-- Witness for `C9_load_stores_path`: loading a non-existing `p.ini` fails
but records the path, and saving then succeeds on a writable filesystem. -/
theorem C9_load_stores_path_witness :
    (Load demoFS0 demoSt "p.ini").1 = false ∧
    (Load demoFS0 demoSt "p.ini").2.Path = "p.ini" ∧
    ((Save demoFS0 (Load demoFS0 demoSt "p.ini").2).1 = true ↔
      demoFS0.fsWritable "p.ini" = true) :=
  C9_load_stores_path demoFS0 demoSt "p.ini" (by decide) (by decide)

theorem C5_comment_stripping :
    (∀ (d : Data) (cat : String) (l1 l2 : List Char),
      trim (stripComment l1) = trim (stripComment l2) →
      processLine d cat l1 = processLine d cat l2) ∧
    (∀ (d : Data) (cat : String) (l : List Char),
      trim (stripComment l) = [] → processLine d cat l = (d, cat)) ∧
    (∀ (d : Data) (cat : String),
      processLine d cat "key=1 ; comment".data = (dataSet d cat "key" "1", cat)) ∧
    (∀ (d : Data) (cat : String) (l : List Char),
      (trim l).head? = some '#' → processLine d cat l = (d, cat)) := by
  refine ⟨processLine_congr, processLine_skip, ?_, processLine_hash⟩
  intro d cat
  rfl

theorem C5_comment_stripping_witness :
    processLine [] "Default" " x=1 ".data = processLine [] "Default" "x=1 ; c".data ∧
    processLine [] "Default" "   ; only a comment".data = ([], "Default") ∧
    processLine [] "Default" "key=1 ; comment".data = (dataSet [] "Default" "key" "1", "Default") ∧
    processLine [] "Default" "  # full-line comment".data = ([], "Default") :=
  ⟨C5_comment_stripping.1 [] "Default" " x=1 ".data "x=1 ; c".data (by decide),
   C5_comment_stripping.2.1 [] "Default" "   ; only a comment".data (by decide),
   C5_comment_stripping.2.2.1 [] "Default",
   C5_comment_stripping.2.2.2 [] "Default" "  # full-line comment".data (by decide)⟩

theorem C6_section_scoping :
    (∀ text : String, (∀ l ∈ splitLines text.data, ¬isHeaderLine l) →
      ∀ p ∈ Parse text, p.1 = "Default") ∧
    (∀ (d : Data) (cat : String) (line mid : List Char) (rest : List (List Char)),
      trim (stripComment line) = '[' :: mid ++ [']'] →
      processLine d cat line = (d, String.mk (trim mid)) ∧
      parseLines (line :: rest) d cat = parseLines rest d (String.mk (trim mid))) ∧
    (∀ (d : Data) (c k v1 v2 : String),
      dataSet (dataSet d c k v1) c k v2 = dataSet d c k v2 ∧
      dataFind (dataSet (dataSet d c k v1) c k v2) c k = some v2) := by
  refine ⟨?_, ?_, ?_⟩
  · intro text hnh p hp
    rcases parseLines_cats (splitLines text.data) [] "Default" hnh p hp with h | h
    · simp at h
    · exact h
  · intro d cat line mid rest h
    refine ⟨processLine_header d cat line mid h, ?_⟩
    rw [parseLines, processLine_header d cat line mid h]
  · intro d c k v1 v2
    exact ⟨dataSet_dataSet_self d c k v1 v2, by
      rw [dataSet_dataSet_self d c k v1 v2]
      exact dataFind_dataSet_self d c k v2⟩

theorem C6_section_scoping_witness :
    (("Default", [("a", "1"), ("b", "2")]) : String × KV).1 = "Default" ∧
    (processLine [] "Default" "[Sec]".data = ([], String.mk (trim "Sec".data)) ∧
      parseLines ["[Sec]".data] [] "Default" =
        parseLines [] [] (String.mk (trim "Sec".data))) ∧
    (dataSet (dataSet [] "C" "k" "v1") "C" "k" "v2" = dataSet [] "C" "k" "v2" ∧
      dataFind (dataSet (dataSet [] "C" "k" "v1") "C" "k" "v2") "C" "k" = some "v2") :=
  ⟨C6_section_scoping.1 "a=1\nb=2\n" (by decide) ("Default", [("a", "1"), ("b", "2")]) (by decide),
   C6_section_scoping.2.1 [] "Default" "[Sec]".data "Sec".data [] (by decide),
   C6_section_scoping.2.2 [] "C" "k" "v1" "v2"⟩

theorem C2_roundtrip (d : Data) (cat key : String) :
    (∀ v : String, GetString (SetString d cat key v) cat key = some v) ∧
    (∀ b dflt : Bool, GetBool (SetBool d cat key b) cat key dflt = b) ∧
    (∀ z : ℤ, -2147483648 ≤ z → z ≤ 2147483647 →
      ∀ dflt : ℤ, GetInt (SetInt d cat key z) cat key dflt = z) ∧
    (∀ q : ℚ, |q| ≤ 2 ^ 1023 →
      ∀ dflt : ℚ, |GetDouble (SetDouble d cat key q) cat key dflt - q| ≤ 1 / 2000000) := by
  refine ⟨?_, ?_, ?_, ?_⟩
  · intro v
    simp only [SetString, GetString, dataFind_dataSet_self]
  · intro b dflt
    cases b
    · show GetBool (dataSet d cat key "0") cat key dflt = false
      simp only [GetBool, GetString, dataFind_dataSet_self]
      rw [if_neg (by decide), if_pos (by decide)]
    · show GetBool (dataSet d cat key "1") cat key dflt = true
      simp only [GetBool, GetString, dataFind_dataSet_self]
      rw [if_pos (by decide)]
  · intro z h1 h2 dflt
    simp only [SetInt, GetInt, GetString, dataFind_dataSet_self]
    rw [stoiOpt_intToString z h1 h2]
  · intro q hq dflt
    simp only [SetDouble, GetDouble, GetString, dataFind_dataSet_self]
    rw [stodOpt_doubleToString q hq]
    have h1 : |q * 1000000 - ((round (q * 1000000) : ℤ) : ℚ)| ≤ 1 / 2 := abs_sub_round _
    rw [abs_le] at h1 ⊢
    constructor <;> linarith [h1.1, h1.2]

theorem C2_roundtrip_witness :
    GetString (SetString [] "T" "k" "hello") "T" "k" = some "hello" ∧
    GetBool (SetBool [] "T" "k" true) "T" "k" false = true ∧
    GetInt (SetInt [] "T" "k" (-42)) "T" "k" 0 = -42 ∧
    |GetDouble (SetDouble [] "T" "k" (mkRat 5 2)) "T" "k" 0 - mkRat 5 2| ≤ 1 / 2000000 :=
  ⟨(C2_roundtrip [] "T" "k").1 "hello",
   (C2_roundtrip [] "T" "k").2.1 true false,
   (C2_roundtrip [] "T" "k").2.2.1 (-42) (by norm_num) (by norm_num) 0,
   (C2_roundtrip [] "T" "k").2.2.2 (mkRat 5 2) (by
      rw [Rat.mkRat_eq_div, abs_of_nonneg (by norm_num)]
      calc ((5 : ℤ) : ℚ) / ((2 : ℕ) : ℚ) ≤ 2 ^ 3 := by norm_num
        _ ≤ 2 ^ 1023 := pow_le_pow_right (by norm_num) (by norm_num)) 0⟩

/-- Claim C10: for an in-memory document whose categories each hold at least
one key, whose category names and keys are non-empty, comment-free,
newline-free and trimmed, whose keys contain no `=` and do not start with
`[`, and whose values are comment-free, newline-free and trimmed, parsing
the exact text `Save` writes reproduces the document. -/
theorem C10_save_parse_roundtrip (d : Data) (hg : goodData d) :
    Parse (serialize d) = d := by
  by_cases hd : d = []
  · subst hd
    rfl
  · have hne : serializeLines d ≠ [] := by
      cases d with
      | nil => exact absurd rfl hd
      | cons p rest =>
          obtain ⟨c, kv⟩ := p
          rw [serializeLines_cons]
          simp
    have h1 : Parse (serialize d) =
        parseLines (splitLines (unlines (serializeLines d))) [] "Default" := rfl
    rw [h1, splitLines_unlines (serializeLines d) hne (serializeLines_no_lf d hg.2)]
    have h2 := parse_serializeLines d [] "Default" hg (by simp)
    simpa using h2

/-- Witness for `C10_save_parse_roundtrip` on a concrete two-category
document. -/
theorem C10_save_parse_roundtrip_witness :
    Parse (serialize [("Render", [("VSync", "0"), ("X", "1")]), ("T", [("a", "b")])]) =
      [("Render", [("VSync", "0"), ("X", "1")]), ("T", [("a", "b")])] :=
  C10_save_parse_roundtrip
    [("Render", [("VSync", "0"), ("X", "1")]), ("T", [("a", "b")])] (by decide)

end SettingsClaims
